import Mathlib

/-!
# Verification of the `paginator` bidirectional-cursor library

A shallow embedding of the repository's paginator module: bidirectional
cursors (`next` / `previous`) over owned sequences, with source cursors
(`Once`, `VecPag`, `VecPagMut`) and composition adapters (`Map`,
`Enumerate`, `Chain`).

Each Rust cursor is a Lean structure with the same fields; `next` and
`previous`, which in Rust take `&mut self` and return `Option<Item>`, are
modelled as pure state transformers `σ → Option Item × σ`.  Rust's `Vec`
becomes `List`, `usize` becomes `Nat`.  The one place where `usize`
arithmetic can abort — the unguarded `self.index -= 1` in
`Enumerate::previous` — is modelled explicitly: that function returns
`Option (Option Item × σ)`, where the outer `none` stands for the
underflow panic.
-/

namespace Pagination

/-- `Once<'pag, A>` (src/src/paginator/mod.rs): paginator holding a single
element, with a `usize` position (0 = before the element, 1 = after). -/
structure Once (α : Type) where
  position : Nat
  element : α
deriving DecidableEq, Repr

/-- `fn once<T>(element: &T) -> Once<T>`: builds the state with position 0. -/
def once (element : α) : Once α :=
  { position := 0, element := element }

/-- `Once::next`: yields the element and moves position 0 → 1; otherwise `None`. -/
def Once.next (s : Once α) : Option α × Once α :=
  if s.position = 0 then
    (some s.element, { s with position := s.position + 1 })
  else
    (none, s)

/-- `Once::previous`: yields the element and moves position 1 → 0; otherwise `None`. -/
def Once.previous (s : Once α) : Option α × Once α :=
  if s.position = 1 then
    (some s.element, { s with position := s.position - 1 })
  else
    (none, s)

/-- `VecPag<'pag, A>` (src/src/paginator/mod.rs): read cursor over a `Vec`,
with public fields `items` and `index`. -/
structure VecPag (α : Type) where
  items : List α
  index : Nat
deriving DecidableEq, Repr

/-- `VecPag::next`: `self.items.get(self.index)`, and on success `self.index += 1`. -/
def VecPag.next (s : VecPag α) : Option α × VecPag α :=
  match s.items[s.index]? with
  | some element => (some element, { s with index := s.index + 1 })
  | none => (none, s)

/-- `VecPag::previous`: `None` when `index == 0`; else
`self.items.get(self.index - 1)`, and on success `self.index -= 1`. -/
def VecPag.previous (s : VecPag α) : Option α × VecPag α :=
  if s.index = 0 then
    (none, s)
  else
    match s.items[s.index - 1]? with
    | some element => (some element, { s with index := s.index - 1 })
    | none => (none, s)

/-- `<Vec<A> as Paginate>::paginate`: read cursor starting at index 0. -/
def paginate (items : List α) : VecPag α :=
  { items := items, index := 0 }

/-- `VecPagMut<'pag, A>` (src/src/paginator.rs): mutating cursor over a `Vec`.
Its `next`/`previous` use `get_mut` with the same index logic as `VecPag`;
the yielded `&mut A` is modelled by the element value. -/
structure VecPagMut (α : Type) where
  items : List α
  index : Nat
deriving DecidableEq, Repr

/-- `VecPagMut::next`: same index logic as `VecPag::next`, via `get_mut`. -/
def VecPagMut.next (s : VecPagMut α) : Option α × VecPagMut α :=
  match s.items[s.index]? with
  | some element => (some element, { s with index := s.index + 1 })
  | none => (none, s)

/-- `VecPagMut::previous`: same index logic as `VecPag::previous`, via `get_mut`. -/
def VecPagMut.previous (s : VecPagMut α) : Option α × VecPagMut α :=
  if s.index = 0 then
    (none, s)
  else
    match s.items[s.index - 1]? with
    | some element => (some element, { s with index := s.index - 1 })
    | none => (none, s)

/-- `<Vec<A> as PaginateMut>::paginate_mut`: mutating cursor starting at index 0. -/
def paginateMut (items : List α) : VecPagMut α :=
  { items := items, index := 0 }

/-- The `Paginator` trait: `next` and `previous`, as pure state transformers. -/
class Paginator (σ : Type) (Item : outParam Type) where
  next : σ → Option Item × σ
  previous : σ → Option Item × σ

instance : Paginator (Once α) α :=
  ⟨Once.next, Once.previous⟩

instance : Paginator (VecPag α) α :=
  ⟨VecPag.next, VecPag.previous⟩

instance : Paginator (VecPagMut α) α :=
  ⟨VecPagMut.next, VecPagMut.previous⟩

/-- `Map<A, F>` (src/src/paginator/adapters.rs): wraps a cursor and the
mapping function `f`. -/
structure Map (σ : Type) (α β : Type) where
  inner : σ
  f : α → β

/-- `Paginator::map`: builds the `Map` state; no traversal happens. -/
def Paginator.map [Paginator σ α] (c : σ) (f : α → β) : Map σ α β :=
  { inner := c, f := f }

/-- `Map::next`: `self.inner.next().map(&self.f)`. -/
def Map.next [Paginator σ α] (s : Map σ α β) : Option β × Map σ α β :=
  match Paginator.next s.inner with
  | (o, inner) => (o.map s.f, { s with inner := inner })

/-- `Map::previous`: `self.inner.previous().map(&self.f)`. -/
def Map.previous [Paginator σ α] (s : Map σ α β) : Option β × Map σ α β :=
  match Paginator.previous s.inner with
  | (o, inner) => (o.map s.f, { s with inner := inner })

instance [Paginator σ α] : Paginator (Map σ α β) β :=
  ⟨Map.next, Map.previous⟩

/-- `Enumerate<A>` (src/src/paginator/adapters.rs): wraps a cursor and a
`usize` counter `index`. -/
structure Enumerate (σ : Type) where
  index : Nat
  inner : σ
deriving DecidableEq, Repr

/-- `Paginator::enumerate`: builds the `Enumerate` state with `index: 0`. -/
def Paginator.enumerate (c : σ) : Enumerate σ :=
  { index := 0, inner := c }

/-- `Enumerate::next`: on an inner element, yields `(old_index, element)` and
then does `self.index += 1`. -/
def Enumerate.next [Paginator σ α] (s : Enumerate σ) :
    Option (Nat × α) × Enumerate σ :=
  match Paginator.next s.inner with
  | (some element, inner) =>
      (some (s.index, element), { index := s.index + 1, inner := inner })
  | (none, inner) => (none, { s with inner := inner })

/-- `Enumerate::previous`: on an inner element, records `old_index`, then does
`self.index -= 1` — an unguarded `usize` subtraction, which aborts (overflow
panic) when `self.index` is 0.  The abort is the outer `none`; otherwise the
call yields `(old_index, element)` with the decremented counter. -/
def Enumerate.previous [Paginator σ α] (s : Enumerate σ) :
    Option (Option (Nat × α) × Enumerate σ) :=
  match Paginator.previous s.inner with
  | (some element, inner) =>
      if s.index = 0 then
        none
      else
        some (some (s.index, element), { index := s.index - 1, inner := inner })
  | (none, inner) => some (none, { s with inner := inner })

/-- `ChainState` (src/src/paginator/adapters.rs). -/
inductive ChainState where
  | First
  | Second
deriving DecidableEq, Repr

/-- `Chain<A, B>`: the discriminator (`disjunctor`) plus both wrapped cursors. -/
structure Chain (σa σb : Type) where
  disjunctor : ChainState
  inner_a : σa
  inner_b : σb
deriving DecidableEq, Repr

/-- `Paginator::chain`: builds the `Chain` state with `disjunctor: First`. -/
def Paginator.chain (a : σa) (b : σb) : Chain σa σb :=
  { disjunctor := ChainState.First, inner_a := a, inner_b := b }

/-- `Chain::next`: while the disjunctor is `First`, try `A.next()`; on `None`
switch to `Second` and fall through to `B.next()`, converting B's item via
`Into` (here the explicit `conv`). -/
def Chain.next [Paginator σa α] [Paginator σb β] (conv : β → α)
    (s : Chain σa σb) : Option α × Chain σa σb :=
  match s.disjunctor with
  | ChainState.First =>
    match Paginator.next s.inner_a with
    | (some next_a, ia) => (some next_a, { s with inner_a := ia })
    | (none, ia) =>
      match Paginator.next s.inner_b with
      | (some next_b, ib) =>
          (some (conv next_b),
           { disjunctor := ChainState.Second, inner_a := ia, inner_b := ib })
      | (none, ib) =>
          (none,
           { disjunctor := ChainState.Second, inner_a := ia, inner_b := ib })
  | ChainState.Second =>
    match Paginator.next s.inner_b with
    | (some next_b, ib) => (some (conv next_b), { s with inner_b := ib })
    | (none, ib) => (none, { s with inner_b := ib })

/-- `Chain::previous`: while the disjunctor is `Second`, try `B.previous()`;
on `None` switch to `First` and fall through to `A.previous()`. -/
def Chain.previous [Paginator σa α] [Paginator σb β] (conv : β → α)
    (s : Chain σa σb) : Option α × Chain σa σb :=
  match s.disjunctor with
  | ChainState.Second =>
    match Paginator.previous s.inner_b with
    | (some previous_b, ib) => (some (conv previous_b), { s with inner_b := ib })
    | (none, ib) =>
      match Paginator.previous s.inner_a with
      | (some previous_a, ia) =>
          (some previous_a,
           { disjunctor := ChainState.First, inner_a := ia, inner_b := ib })
      | (none, ia) =>
          (none,
           { disjunctor := ChainState.First, inner_a := ia, inner_b := ib })
  | ChainState.First =>
    match Paginator.previous s.inner_a with
    | (some previous_a, ia) => (some previous_a, { s with inner_a := ia })
    | (none, ia) => (none, { s with inner_a := ia })

/-- A single traversal call: forward (`advance`, i.e. `next`) or backward
(`retreat`, i.e. `previous`). -/
inductive Op where
  | advance
  | retreat
deriving DecidableEq, Repr

/-- One traversal call on a cursor state. -/
def stepOp [Paginator σ α] (op : Op) (s : σ) : Option α × σ :=
  match op with
  | Op.advance => Paginator.next s
  | Op.retreat => Paginator.previous s

/-- The state after a sequence of traversal calls. -/
def runOps [Paginator σ α] : List Op → σ → σ
  | [], s => s
  | op :: rest, s => runOps rest (stepOp (α := α) op s).2

/-- The results of a sequence of traversal calls, in order. -/
def outputs [Paginator σ α] : List Op → σ → List (Option α)
  | [], _ => []
  | op :: rest, s =>
    (stepOp op s).1 :: outputs rest (stepOp (α := α) op s).2

/-- The results of `n` consecutive `next` calls, with the final state. -/
def advanceRun [Paginator σ α] : Nat → σ → List (Option α) × σ
  | 0, s => ([], s)
  | n + 1, s =>
    let p := Paginator.next s
    let q := advanceRun n p.2
    (p.1 :: q.1, q.2)

/-- The results of `n` consecutive `previous` calls, with the final state. -/
def retreatRun [Paginator σ α] : Nat → σ → List (Option α) × σ
  | 0, s => ([], s)
  | n + 1, s =>
    let p := Paginator.previous s
    let q := retreatRun n p.2
    (p.1 :: q.1, q.2)

/-- When both wrapped cursors yield the same item type, `Chain` is itself a
paginator, converting with the reflexive `Into` (the identity). -/
instance [Paginator σa α] [Paginator σb α] : Paginator (Chain σa σb) α :=
  ⟨Chain.next id, Chain.previous id⟩

end Pagination

namespace Pagination

/-! Bridge lemmas: the `Paginator` class methods of each instance are the
structure-specific step functions. -/

@[simp]
theorem next_once (s : Once α) : Paginator.next s = Once.next s := rfl

@[simp]
theorem previous_once (s : Once α) : Paginator.previous s = Once.previous s := rfl

@[simp]
theorem next_vecPag (s : VecPag α) : Paginator.next s = VecPag.next s := rfl

@[simp]
theorem previous_vecPag (s : VecPag α) : Paginator.previous s = VecPag.previous s := rfl

@[simp]
theorem next_vecPagMut (s : VecPagMut α) : Paginator.next s = VecPagMut.next s := rfl

@[simp]
theorem previous_vecPagMut (s : VecPagMut α) :
    Paginator.previous s = VecPagMut.previous s := rfl

@[simp]
theorem next_map [Paginator σ α] (s : Map σ α β) :
    Paginator.next s = Map.next s := rfl

@[simp]
theorem previous_map [Paginator σ α] (s : Map σ α β) :
    Paginator.previous s = Map.previous s := rfl

@[simp]
theorem next_chain [Paginator σa α] [Paginator σb α] (s : Chain σa σb) :
    Paginator.next s = Chain.next id s := rfl

@[simp]
theorem previous_chain [Paginator σa α] [Paginator σb α] (s : Chain σa σb) :
    Paginator.previous s = Chain.previous id s := rfl

/-- **C1.** The spec says `Enumerate::previous` decrements the counter first
and then yields `(counter, element)`, so retreat tags mirror the forward tags
in reverse.  The code instead yields the old counter and then decrements:
over the one-element collection `[10]`, the single advance is tagged `0`, but
the following retreat is tagged `1`, not `0` — the mirror property fails. -/
theorem c1_enumerate_retreat_tag_not_mirrored :
    Enumerate.next (Paginator.enumerate (paginate ([10] : List Nat)))
      = (some (0, 10), ⟨1, ⟨[10], 1⟩⟩)
  ∧ Enumerate.previous (⟨1, (⟨[10], 1⟩ : VecPag Nat)⟩ : Enumerate (VecPag Nat))
      = some (some (1, 10), ⟨0, ⟨[10], 0⟩⟩)
  ∧ ((1, 10) : Nat × Nat) ≠ (0, 10) := by
  refine ⟨rfl, rfl, by decide⟩

/-- **C2.** The symmetry law fails for the index-tagging adapter: over
`[7, 9]`, the second advance returns `x = (1, 9)`, and one retreat restores
the state that preceded that advance (counter 1, inner index 1) but returns
`(2, 9) ≠ x`, because `Enumerate::previous` tags with the counter value from
before the decrement. -/
theorem c2_symmetry_fails_for_enumerate :
    Enumerate.next (Paginator.enumerate (paginate ([7, 9] : List Nat)))
      = (some (0, 7), ⟨1, ⟨[7, 9], 1⟩⟩)
  ∧ Enumerate.next (⟨1, (⟨[7, 9], 1⟩ : VecPag Nat)⟩ : Enumerate (VecPag Nat))
      = (some (1, 9), ⟨2, ⟨[7, 9], 2⟩⟩)
  ∧ Enumerate.previous (⟨2, (⟨[7, 9], 2⟩ : VecPag Nat)⟩ : Enumerate (VecPag Nat))
      = some (some (2, 9), ⟨1, ⟨[7, 9], 1⟩⟩)
  ∧ ((2, 9) : Nat × Nat) ≠ (1, 9) := by
  refine ⟨rfl, rfl, rfl, by decide⟩

/-- **C4.** Over `A = [a0, a1]` and `B = [b0, b1]`, the concatenation cursor
advances through `a0, a1, b0, b1`, then signals end; immediately reversing,
it retreats through `b1, b0, a1, a0`, then signals end.  The discriminator
stays `First` through the first two advances, becomes `Second` on the third
(when `A` is exhausted), stays `Second` down to two retreats, and returns to
`First` on the third retreat (when `B` is exhausted backward). -/
theorem c4_chain_ordering (α : Type) (a0 a1 b0 b1 : α) :
    (advanceRun 5 (Paginator.chain (paginate [a0, a1]) (paginate [b0, b1]))).1
      = [some a0, some a1, some b0, some b1, none]
  ∧ (retreatRun 5
        (advanceRun 5 (Paginator.chain (paginate [a0, a1]) (paginate [b0, b1]))).2).1
      = [some b1, some b0, some a1, some a0, none]
  ∧ (runOps (List.replicate 2 Op.advance)
        (Paginator.chain (paginate [a0, a1]) (paginate [b0, b1]))).disjunctor
      = ChainState.First
  ∧ (runOps (List.replicate 3 Op.advance)
        (Paginator.chain (paginate [a0, a1]) (paginate [b0, b1]))).disjunctor
      = ChainState.Second
  ∧ (runOps (List.replicate 5 Op.advance ++ List.replicate 2 Op.retreat)
        (Paginator.chain (paginate [a0, a1]) (paginate [b0, b1]))).disjunctor
      = ChainState.Second
  ∧ (runOps (List.replicate 5 Op.advance ++ List.replicate 3 Op.retreat)
        (Paginator.chain (paginate [a0, a1]) (paginate [b0, b1]))).disjunctor
      = ChainState.First := by
  refine ⟨?_, ?_, ?_, ?_, ?_, ?_⟩ <;>
    simp [advanceRun, retreatRun, runOps, stepOp, Paginator.chain, paginate,
      Chain.next, Chain.previous, VecPag.next, VecPag.previous, List.replicate]

/-- **C8.** Construction is lazy: each entry point and adapter constructor
only builds its initial state — `paginate`/`paginate_mut` start at index 0,
`once` at position 0, `map` stores the cursor and the unapplied function,
`enumerate` wraps the cursor with counter 0, and `chain` wraps both cursors
with discriminator `First` — and none of them invokes `next` or `previous`
on the wrapped cursor(s). -/
theorem c8_constructors_build_state_only
    {α β σ σb : Type} [Paginator σ α] :
    (∀ l : List α, paginate l = { items := l, index := 0 })
  ∧ (∀ l : List α, paginateMut l = { items := l, index := 0 })
  ∧ (∀ e : α, once e = { position := 0, element := e })
  ∧ (∀ (c : σ) (f : α → β), Paginator.map c f = { inner := c, f := f })
  ∧ (∀ c : σ, Paginator.enumerate c = { index := 0, inner := c })
  ∧ (∀ (a : σ) (b : σb),
        Paginator.chain a b =
          { disjunctor := ChainState.First, inner_a := a, inner_b := b }) :=
  ⟨fun _ => rfl, fun _ => rfl, fun _ => rfl, fun _ _ => rfl, fun _ => rfl,
   fun _ _ => rfl⟩

/-- `n` successful advances from index `i` of a collection cursor yield the
`n` elements starting at `i` and move the index to `i + n`. -/
theorem advanceRun_vecPag (l : List α) :
    ∀ n i, i + n ≤ l.length →
      advanceRun n (⟨l, i⟩ : VecPag α) = (((l.drop i).take n).map some, ⟨l, i + n⟩) := by
  intro n
  induction n with
  | zero => intro i _; simp [advanceRun]
  | succ n ih =>
    intro i h
    have hi : i < l.length := by omega
    have hstep : VecPag.next (⟨l, i⟩ : VecPag α) = (some l[i], ⟨l, i + 1⟩) := by
      simp [VecPag.next, List.getElem?_eq_getElem hi]
    have hq := ih (i + 1) (by omega)
    have harith : i + 1 + n = i + (n + 1) := by omega
    simp only [advanceRun, next_vecPag, hstep, hq, harith]
    rw [List.drop_eq_getElem_cons hi, List.take_succ_cons, List.map_cons]

/-- An advance at the far end of the collection signals end and leaves the
cursor unchanged. -/
theorem vecPag_next_at_end (l : List α) :
    VecPag.next (⟨l, l.length⟩ : VecPag α) = (none, ⟨l, l.length⟩) := by
  simp [VecPag.next, List.getElem?_eq_none (Nat.le_refl _)]

/-- `n` successful retreats from index `i` of a collection cursor yield the
`n` elements below `i` in reverse and move the index to `i - n`. -/
theorem retreatRun_vecPag (l : List α) :
    ∀ n i, n ≤ i → i ≤ l.length →
      retreatRun n (⟨l, i⟩ : VecPag α) =
        ((((l.drop (i - n)).take n).reverse).map some, ⟨l, i - n⟩) := by
  intro n
  induction n with
  | zero => intro i _ _; simp [retreatRun]
  | succ n ih =>
    intro i hn hl
    have hi0 : i ≠ 0 := by omega
    have hi1 : i - 1 < l.length := by omega
    have hstep : VecPag.previous (⟨l, i⟩ : VecPag α) = (some l[i - 1], ⟨l, i - 1⟩) := by
      simp [VecPag.previous, hi0, List.getElem?_eq_getElem hi1]
    have hq := ih (i - 1) (by omega) (by omega)
    have hidx : i - (n + 1) = i - 1 - n := by omega
    have htake : (l.drop (i - 1 - n)).take (n + 1) =
        (l.drop (i - 1 - n)).take n ++ [l[i - 1]] := by
      rw [List.take_succ, List.getElem?_drop]
      have : i - 1 - n + n = i - 1 := by omega
      rw [this, List.getElem?_eq_getElem hi1]
      rfl
    simp only [retreatRun, previous_vecPag, hstep, hq, hidx, htake]
    simp

/-- A retreat at index 0 signals end and leaves the cursor unchanged. -/
theorem vecPag_previous_at_start (l : List α) :
    VecPag.previous (⟨l, 0⟩ : VecPag α) = (none, ⟨l, 0⟩) := by
  simp [VecPag.previous]

/-- Consecutive advance runs concatenate. -/
theorem advanceRun_add [Paginator σ α] (n m : Nat) :
    ∀ s : σ, advanceRun (n + m) s =
      ((advanceRun n s).1 ++ (advanceRun m (advanceRun n s).2).1,
       (advanceRun m (advanceRun n s).2).2) := by
  induction n with
  | zero => intro s; simp [advanceRun]
  | succ n ih =>
    intro s
    have : n + 1 + m = (n + m) + 1 := by omega
    rw [this]
    simp [advanceRun, ih, List.cons_append]

/-- Consecutive retreat runs concatenate. -/
theorem retreatRun_add [Paginator σ α] (n m : Nat) :
    ∀ s : σ, retreatRun (n + m) s =
      ((retreatRun n s).1 ++ (retreatRun m (retreatRun n s).2).1,
       (retreatRun m (retreatRun n s).2).2) := by
  induction n with
  | zero => intro s; simp [retreatRun]
  | succ n ih =>
    intro s
    have : n + 1 + m = (n + m) + 1 := by omega
    rw [this]
    simp [retreatRun, ih, List.cons_append]

/-- **C3.** Round-trip symmetry of the collection cursor: freshly created
over a sequence of length `N`, `N + 1` advances yield the `N` elements in
order and then the end signal, and `N + 1` retreats from there yield the
same elements in reverse and then the end signal. -/
theorem c3_vecpag_round_trip (α : Type) (l : List α) :
    (advanceRun (l.length + 1) (paginate l)).1 = l.map some ++ [none]
  ∧ (retreatRun (l.length + 1) (advanceRun (l.length + 1) (paginate l)).2).1
      = l.reverse.map some ++ [none] := by
  have hadv := advanceRun_vecPag l l.length 0 (by omega)
  have hfwd : advanceRun (l.length + 1) (paginate l) =
      (l.map some ++ [none], ⟨l, l.length⟩) := by
    rw [advanceRun_add l.length 1 (paginate l)]
    simp only [paginate] at hadv ⊢
    rw [hadv]
    simp [advanceRun, vecPag_next_at_end]
  have hret := retreatRun_vecPag l l.length l.length (Nat.le_refl _) (Nat.le_refl _)
  constructor
  · rw [hfwd]
  · rw [hfwd]
    rw [retreatRun_add l.length 1 (⟨l, l.length⟩ : VecPag α)]
    simp only [Nat.sub_self, List.drop_zero, List.take_length] at hret
    rw [hret]
    simp [retreatRun, vecPag_previous_at_start]

/-- **C5.** Collection-cursor step semantics, for the read and the mutating
cursor alike, at any position `i` in the invariant range `[0, length]`:
advance at `i < length` yields element `i` and moves to `i + 1`, and
otherwise signals end leaving the index unchanged; retreat at `i > 0` yields
element `i - 1` and moves to `i - 1`, and at `i = 0` signals end leaving the
index unchanged. -/
theorem c5_collection_cursor_step (α : Type) (l : List α) (i : Nat) :
    (∀ h : i < l.length, VecPag.next ⟨l, i⟩ = (some (l.get ⟨i, h⟩), ⟨l, i + 1⟩))
  ∧ (l.length ≤ i → VecPag.next ⟨l, i⟩ = (none, ⟨l, i⟩))
  ∧ (∀ _ : 0 < i, ∀ h : i ≤ l.length,
        VecPag.previous ⟨l, i⟩ =
          (some (l.get ⟨i - 1, by omega⟩), ⟨l, i - 1⟩))
  ∧ (i = 0 → VecPag.previous ⟨l, i⟩ = (none, ⟨l, i⟩))
  ∧ (∀ h : i < l.length, VecPagMut.next ⟨l, i⟩ = (some (l.get ⟨i, h⟩), ⟨l, i + 1⟩))
  ∧ (l.length ≤ i → VecPagMut.next ⟨l, i⟩ = (none, ⟨l, i⟩))
  ∧ (∀ _ : 0 < i, ∀ h : i ≤ l.length,
        VecPagMut.previous ⟨l, i⟩ =
          (some (l.get ⟨i - 1, by omega⟩), ⟨l, i - 1⟩))
  ∧ (i = 0 → VecPagMut.previous ⟨l, i⟩ = (none, ⟨l, i⟩)) := by
  refine ⟨?_, ?_, ?_, ?_, ?_, ?_, ?_, ?_⟩
  · intro h; simp [VecPag.next, List.getElem?_eq_getElem h]
  · intro h; simp [VecPag.next, List.getElem?_eq_none h]
  · intro h0 h
    have h1 : i - 1 < l.length := by omega
    simp [VecPag.previous, Nat.pos_iff_ne_zero.mp h0, List.getElem?_eq_getElem h1]
  · intro h; simp [VecPag.previous, h]
  · intro h; simp [VecPagMut.next, List.getElem?_eq_getElem h]
  · intro h; simp [VecPagMut.next, List.getElem?_eq_none h]
  · intro h0 h
    have h1 : i - 1 < l.length := by omega
    simp [VecPagMut.previous, Nat.pos_iff_ne_zero.mp h0, List.getElem?_eq_getElem h1]
  · intro h; simp [VecPagMut.previous, h]

/-- Witness for C5 on the concrete collection `[10, 20]`, touching every
hypothesis: a mid-collection advance, an advance at the end, a retreat from
the end, and a retreat at the start, for both cursors. -/
theorem c5_collection_cursor_step_witness :
    VecPag.next (⟨[10, 20], 1⟩ : VecPag Nat) = (some 20, ⟨[10, 20], 2⟩)
  ∧ VecPag.next (⟨[10, 20], 2⟩ : VecPag Nat) = (none, ⟨[10, 20], 2⟩)
  ∧ VecPag.previous (⟨[10, 20], 2⟩ : VecPag Nat) = (some 20, ⟨[10, 20], 1⟩)
  ∧ VecPag.previous (⟨[10, 20], 0⟩ : VecPag Nat) = (none, ⟨[10, 20], 0⟩)
  ∧ VecPagMut.next (⟨[10, 20], 1⟩ : VecPagMut Nat) = (some 20, ⟨[10, 20], 2⟩)
  ∧ VecPagMut.next (⟨[10, 20], 2⟩ : VecPagMut Nat) = (none, ⟨[10, 20], 2⟩)
  ∧ VecPagMut.previous (⟨[10, 20], 2⟩ : VecPagMut Nat) = (some 20, ⟨[10, 20], 1⟩)
  ∧ VecPagMut.previous (⟨[10, 20], 0⟩ : VecPagMut Nat) = (none, ⟨[10, 20], 0⟩) :=
  ⟨(c5_collection_cursor_step Nat [10, 20] 1).1 (by decide),
   (c5_collection_cursor_step Nat [10, 20] 2).2.1 (by decide),
   (c5_collection_cursor_step Nat [10, 20] 2).2.2.1 (by decide) (by decide),
   (c5_collection_cursor_step Nat [10, 20] 0).2.2.2.1 rfl,
   (c5_collection_cursor_step Nat [10, 20] 1).2.2.2.2.1 (by decide),
   (c5_collection_cursor_step Nat [10, 20] 2).2.2.2.2.2.1 (by decide),
   (c5_collection_cursor_step Nat [10, 20] 2).2.2.2.2.2.2.1 (by decide) (by decide),
   (c5_collection_cursor_step Nat [10, 20] 0).2.2.2.2.2.2.2 rfl⟩

/-- One traversal call on a read collection cursor keeps the backing items
and keeps the index within `[0, length]`. -/
theorem vecPag_step_inv (op : Op) (s : VecPag α) (h : s.index ≤ s.items.length) :
    (stepOp op s).2.items = s.items ∧ (stepOp op s).2.index ≤ s.items.length := by
  cases op with
  | advance =>
    cases hg : s.items[s.index]? with
    | some e =>
      have hlt : s.index < s.items.length := (List.getElem?_eq_some.mp hg).1
      simp only [stepOp, next_vecPag, VecPag.next, hg]
      exact ⟨by trivial, by omega⟩
    | none =>
      simp only [stepOp, next_vecPag, VecPag.next, hg]
      exact ⟨by trivial, h⟩
  | retreat =>
    by_cases h0 : s.index = 0
    · simp [stepOp, previous_vecPag, VecPag.previous, h0]
    · cases hg : s.items[s.index - 1]? with
      | some e =>
        simp only [stepOp, previous_vecPag, VecPag.previous, h0, if_false, hg]
        exact ⟨by trivial, by omega⟩
      | none =>
        simp only [stepOp, previous_vecPag, VecPag.previous, h0, if_false, hg]
        exact ⟨by trivial, h⟩

/-- One traversal call on a mutating collection cursor keeps the backing
items and keeps the index within `[0, length]`. -/
theorem vecPagMut_step_inv (op : Op) (s : VecPagMut α) (h : s.index ≤ s.items.length) :
    (stepOp op s).2.items = s.items ∧ (stepOp op s).2.index ≤ s.items.length := by
  cases op with
  | advance =>
    cases hg : s.items[s.index]? with
    | some e =>
      have hlt : s.index < s.items.length := (List.getElem?_eq_some.mp hg).1
      simp only [stepOp, next_vecPagMut, VecPagMut.next, hg]
      exact ⟨by trivial, by omega⟩
    | none =>
      simp only [stepOp, next_vecPagMut, VecPagMut.next, hg]
      exact ⟨by trivial, h⟩
  | retreat =>
    by_cases h0 : s.index = 0
    · simp [stepOp, previous_vecPagMut, VecPagMut.previous, h0]
    · cases hg : s.items[s.index - 1]? with
      | some e =>
        simp only [stepOp, previous_vecPagMut, VecPagMut.previous, h0, if_false, hg]
        exact ⟨by trivial, by omega⟩
      | none =>
        simp only [stepOp, previous_vecPagMut, VecPagMut.previous, h0, if_false, hg]
        exact ⟨by trivial, h⟩

/-- Any sequence of traversal calls on a read collection cursor keeps the
items and the `[0, length]` index range. -/
theorem runOps_vecPag_inv (ops : List Op) :
    ∀ s : VecPag α, s.index ≤ s.items.length →
      (runOps ops s).items = s.items ∧ (runOps ops s).index ≤ s.items.length := by
  induction ops with
  | nil => intro s h; exact ⟨rfl, h⟩
  | cons op rest ih =>
    intro s h
    simp only [runOps]
    obtain ⟨hit, hix⟩ := vecPag_step_inv op s h
    obtain ⟨hit', hix'⟩ := ih (stepOp op s).2 (by rw [hit]; exact hix)
    exact ⟨by rw [hit', hit], by rw [hit] at hix'; exact hix'⟩

/-- Any sequence of traversal calls on a mutating collection cursor keeps the
items and the `[0, length]` index range. -/
theorem runOps_vecPagMut_inv (ops : List Op) :
    ∀ s : VecPagMut α, s.index ≤ s.items.length →
      (runOps ops s).items = s.items ∧ (runOps ops s).index ≤ s.items.length := by
  induction ops with
  | nil => intro s h; exact ⟨rfl, h⟩
  | cons op rest ih =>
    intro s h
    simp only [runOps]
    obtain ⟨hit, hix⟩ := vecPagMut_step_inv op s h
    obtain ⟨hit', hix'⟩ := ih (stepOp op s).2 (by rw [hit]; exact hix)
    exact ⟨by rw [hit', hit], by rw [hit] at hix'; exact hix'⟩

/-- A read cursor's advance accesses (and yields) an element exactly when the
index is strictly inside the collection. -/
theorem vecPag_next_isSome (s : VecPag α) :
    (VecPag.next s).1.isSome ↔ s.index < s.items.length := by
  unfold VecPag.next
  cases hg : s.items[s.index]? with
  | some e =>
    simp only [hg]
    simp [(List.getElem?_eq_some.mp hg).1]
  | none =>
    have hge : s.items.length ≤ s.index := by
      by_contra hlt
      push_neg at hlt
      rw [List.getElem?_eq_getElem hlt] at hg
      exact Option.noConfusion hg
    simp only [hg]
    simp [Nat.not_lt.mpr hge]

/-- Within the invariant range, a read cursor's retreat accesses (and yields)
an element exactly when the index is positive. -/
theorem vecPag_previous_isSome (s : VecPag α) (h : s.index ≤ s.items.length) :
    (VecPag.previous s).1.isSome ↔ 0 < s.index := by
  unfold VecPag.previous
  by_cases h0 : s.index = 0
  · simp [h0]
  · have h1 : s.index - 1 < s.items.length := by omega
    simp [h0, List.getElem?_eq_getElem h1, Nat.pos_of_ne_zero h0]

/-- A mutating cursor's advance accesses an element exactly when the index is
strictly inside the collection. -/
theorem vecPagMut_next_isSome (s : VecPagMut α) :
    (VecPagMut.next s).1.isSome ↔ s.index < s.items.length := by
  unfold VecPagMut.next
  cases hg : s.items[s.index]? with
  | some e =>
    simp only [hg]
    simp [(List.getElem?_eq_some.mp hg).1]
  | none =>
    have hge : s.items.length ≤ s.index := by
      by_contra hlt
      push_neg at hlt
      rw [List.getElem?_eq_getElem hlt] at hg
      exact Option.noConfusion hg
    simp only [hg]
    simp [Nat.not_lt.mpr hge]

/-- Within the invariant range, a mutating cursor's retreat accesses an
element exactly when the index is positive. -/
theorem vecPagMut_previous_isSome (s : VecPagMut α) (h : s.index ≤ s.items.length) :
    (VecPagMut.previous s).1.isSome ↔ 0 < s.index := by
  unfold VecPagMut.previous
  by_cases h0 : s.index = 0
  · simp [h0]
  · have h1 : s.index - 1 < s.items.length := by omega
    simp [h0, List.getElem?_eq_getElem h1, Nat.pos_of_ne_zero h0]

/-- **C7.** Starting from the conversion entry point (index 0), any finite
sequence of advance/retreat calls leaves a collection cursor (read or
mutating) with the same backing items and an index in `[0, length]`; at every
such state an advance accesses an element exactly when `index < length` and a
retreat exactly when `index > 0`, so every performed element access is at an
index inside `[0, length)`. -/
theorem c7_position_invariant (α : Type) (l : List α) (ops : List Op) :
    (runOps ops (paginate l)).items = l
  ∧ (runOps ops (paginate l)).index ≤ l.length
  ∧ ((VecPag.next (runOps ops (paginate l))).1.isSome
      ↔ (runOps ops (paginate l)).index < l.length)
  ∧ ((VecPag.previous (runOps ops (paginate l))).1.isSome
      ↔ 0 < (runOps ops (paginate l)).index)
  ∧ (runOps ops (paginateMut l)).items = l
  ∧ (runOps ops (paginateMut l)).index ≤ l.length
  ∧ ((VecPagMut.next (runOps ops (paginateMut l))).1.isSome
      ↔ (runOps ops (paginateMut l)).index < l.length)
  ∧ ((VecPagMut.previous (runOps ops (paginateMut l))).1.isSome
      ↔ 0 < (runOps ops (paginateMut l)).index) := by
  obtain ⟨hit, hix⟩ := runOps_vecPag_inv ops (paginate l) (by simp [paginate])
  obtain ⟨hitm, hixm⟩ := runOps_vecPagMut_inv ops (paginateMut l) (by simp [paginateMut])
  have hit0 : (runOps ops (paginate l)).items = l := by simpa [paginate] using hit
  have hix0 : (runOps ops (paginate l)).index ≤ l.length := by simpa [paginate] using hix
  have hitm0 : (runOps ops (paginateMut l)).items = l := by simpa [paginateMut] using hitm
  have hixm0 : (runOps ops (paginateMut l)).index ≤ l.length := by
    simpa [paginateMut] using hixm
  have hb : (runOps ops (paginate l)).index ≤ (runOps ops (paginate l)).items.length := by
    rw [hit0]; exact hix0
  have hbm : (runOps ops (paginateMut l)).index ≤
      (runOps ops (paginateMut l)).items.length := by
    rw [hitm0]; exact hixm0
  refine ⟨hit0, hix0, ?_, ?_, hitm0, hixm0, ?_, ?_⟩
  · have hns := vecPag_next_isSome (runOps ops (paginate l))
    rw [hit0] at hns
    exact hns
  · exact vecPag_previous_isSome _ hb
  · have hns := vecPagMut_next_isSome (runOps ops (paginateMut l))
    rw [hitm0] at hns
    exact hns
  · exact vecPagMut_previous_isSome _ hbm

/-- The single-element cursor and the read collection cursor over the
one-element list are step-for-step equivalent: from any common position `p`,
every sequence of calls returns the same results. -/
theorem once_vecPag_outputs_aux (e : α) :
    ∀ (ops : List Op) (p : Nat),
      outputs ops (⟨p, e⟩ : Once α) = outputs ops (⟨[e], p⟩ : VecPag α) := by
  intro ops
  induction ops with
  | nil => intro p; rfl
  | cons op rest ih =>
    intro p
    cases op with
    | advance =>
      match p with
      | 0 =>
        simp only [outputs, stepOp, next_once, next_vecPag, Once.next, VecPag.next]
        simp [ih 1]
      | q + 1 =>
        simp only [outputs, stepOp, next_once, next_vecPag, Once.next, VecPag.next]
        simp [ih (q + 1)]
    | retreat =>
      match p with
      | 0 =>
        simp only [outputs, stepOp, previous_once, previous_vecPag,
          Once.previous, VecPag.previous]
        simp [ih 0]
      | 1 =>
        simp only [outputs, stepOp, previous_once, previous_vecPag,
          Once.previous, VecPag.previous]
        simp [ih 0]
      | q + 2 =>
        simp only [outputs, stepOp, previous_once, previous_vecPag,
          Once.previous, VecPag.previous]
        simp [ih (q + 2)]

/-- A step function is end-stable when a call that returned the end signal
leaves a state from which the same call again returns the end signal and the
same state — so repeated calls after "end" keep signaling "end" without
moving the cursor. -/
def EndStable (step : σ → Option α × σ) : Prop :=
  ∀ s s₁, step s = (none, s₁) → step s₁ = (none, s₁)

/-- `Map::next` written with pair projections (equal by structure eta). -/
theorem Map.next_def [Paginator σ α] (s : Map σ α β) :
    Map.next s = ((Paginator.next s.inner).1.map s.f,
      { s with inner := (Paginator.next s.inner).2 }) := rfl

/-- `Map::previous` written with pair projections (equal by structure eta). -/
theorem Map.previous_def [Paginator σ α] (s : Map σ α β) :
    Map.previous s = ((Paginator.previous s.inner).1.map s.f,
      { s with inner := (Paginator.previous s.inner).2 }) := rfl

/-- `Once::next` is end-stable. -/
theorem once_next_end_stable : EndStable (Once.next (α := α)) := by
  intro s s₁ h
  unfold Once.next at h ⊢
  by_cases hp : s.position = 0
  · simp [hp] at h
  · simp only [hp, if_false] at h
    obtain ⟨-, rfl⟩ := Prod.mk.injEq .. ▸ h
    simp [hp]

/-- `Once::previous` is end-stable. -/
theorem once_previous_end_stable : EndStable (Once.previous (α := α)) := by
  intro s s₁ h
  unfold Once.previous at h ⊢
  by_cases hp : s.position = 1
  · simp [hp] at h
  · simp only [hp, if_false] at h
    obtain ⟨-, rfl⟩ := Prod.mk.injEq .. ▸ h
    simp [hp]

/-- `VecPag::next` is end-stable. -/
theorem vecPag_next_end_stable : EndStable (VecPag.next (α := α)) := by
  intro s s₁ h
  unfold VecPag.next at h ⊢
  cases hg : s.items[s.index]? with
  | some e => rw [hg] at h; simp at h
  | none =>
    rw [hg] at h
    obtain ⟨-, rfl⟩ := Prod.mk.injEq .. ▸ h
    rw [hg]

/-- `VecPag::previous` is end-stable. -/
theorem vecPag_previous_end_stable : EndStable (VecPag.previous (α := α)) := by
  intro s s₁ h
  unfold VecPag.previous at h ⊢
  by_cases h0 : s.index = 0
  · simp only [h0, if_true] at h
    obtain ⟨-, rfl⟩ := Prod.mk.injEq .. ▸ h
    simp [h0]
  · simp only [h0, if_false] at h
    cases hg : s.items[s.index - 1]? with
    | some e => rw [hg] at h; simp at h
    | none =>
      rw [hg] at h
      obtain ⟨-, rfl⟩ := Prod.mk.injEq .. ▸ h
      simp only [h0, if_false]
      rw [hg]

/-- `VecPagMut::next` is end-stable. -/
theorem vecPagMut_next_end_stable : EndStable (VecPagMut.next (α := α)) := by
  intro s s₁ h
  unfold VecPagMut.next at h ⊢
  cases hg : s.items[s.index]? with
  | some e => rw [hg] at h; simp at h
  | none =>
    rw [hg] at h
    obtain ⟨-, rfl⟩ := Prod.mk.injEq .. ▸ h
    rw [hg]

/-- `VecPagMut::previous` is end-stable. -/
theorem vecPagMut_previous_end_stable : EndStable (VecPagMut.previous (α := α)) := by
  intro s s₁ h
  unfold VecPagMut.previous at h ⊢
  by_cases h0 : s.index = 0
  · simp only [h0, if_true] at h
    obtain ⟨-, rfl⟩ := Prod.mk.injEq .. ▸ h
    simp [h0]
  · simp only [h0, if_false] at h
    cases hg : s.items[s.index - 1]? with
    | some e => rw [hg] at h; simp at h
    | none =>
      rw [hg] at h
      obtain ⟨-, rfl⟩ := Prod.mk.injEq .. ▸ h
      simp only [h0, if_false]
      rw [hg]

/-- `Map::next` is end-stable whenever the wrapped cursor's `next` is. -/
theorem map_next_end_stable [Paginator σ α]
    (h : EndStable (@Paginator.next σ α _)) :
    EndStable (Map.next (σ := σ) (α := α) (β := β)) := by
  intro s s₁ hm
  rw [Map.next_def] at hm
  rcases hp : Paginator.next s.inner with ⟨o, t⟩
  rw [hp] at hm
  cases o with
  | some a => simp at hm
  | none =>
    obtain ⟨-, rfl⟩ := Prod.mk.injEq .. ▸ hm
    rw [Map.next_def]
    simp [h _ _ hp]

/-- `Map::previous` is end-stable whenever the wrapped cursor's `previous` is. -/
theorem map_previous_end_stable [Paginator σ α]
    (h : EndStable (@Paginator.previous σ α _)) :
    EndStable (Map.previous (σ := σ) (α := α) (β := β)) := by
  intro s s₁ hm
  rw [Map.previous_def] at hm
  rcases hp : Paginator.previous s.inner with ⟨o, t⟩
  rw [hp] at hm
  cases o with
  | some a => simp at hm
  | none =>
    obtain ⟨-, rfl⟩ := Prod.mk.injEq .. ▸ hm
    rw [Map.previous_def]
    simp [h _ _ hp]

/-- `Enumerate::next` is end-stable whenever the wrapped cursor's `next` is. -/
theorem enumerate_next_end_stable [Paginator σ α]
    (h : EndStable (@Paginator.next σ α _)) :
    EndStable (Enumerate.next (σ := σ)) := by
  intro s s₁ he
  unfold Enumerate.next at he ⊢
  rcases hp : Paginator.next s.inner with ⟨o, t⟩
  rw [hp] at he
  cases o with
  | some a => simp at he
  | none =>
    simp only at he
    obtain ⟨-, rfl⟩ := Prod.mk.injEq .. ▸ he
    simp [h _ _ hp]

/-- For `Enumerate::previous` the stable outcome is the non-aborting end
signal: if a call returned "end" (inner cursor at its start; the counter is
untouched), the next call does too, with the same state. -/
theorem enumerate_previous_end_stable [Paginator σ α]
    (h : EndStable (@Paginator.previous σ α _)) :
    ∀ s s₁ : Enumerate σ,
      Enumerate.previous s = some (none, s₁) →
      Enumerate.previous s₁ = some (none, s₁) := by
  intro s s₁ he
  unfold Enumerate.previous at he ⊢
  rcases hp : Paginator.previous s.inner with ⟨o, t⟩
  rw [hp] at he
  cases o with
  | some a =>
    by_cases h0 : s.index = 0 <;> simp [h0] at he
  | none =>
    simp only [Option.some.injEq] at he
    obtain ⟨-, rfl⟩ := Prod.mk.injEq .. ▸ he
    simp [h _ _ hp]

/-- `Chain::next` is end-stable whenever B's `next` is: after a `Chain` end
signal the discriminator is `Second`, so further advances only re-invoke
`B.next()` on an exhausted cursor. -/
theorem chain_next_end_stable [Paginator σa α] [Paginator σb β] (conv : β → α)
    (hb : EndStable (@Paginator.next σb β _)) :
    EndStable (@Chain.next σa α σb β _ _ conv) := by
  intro s s₁ h
  obtain ⟨d, a, b⟩ := s
  cases d with
  | First =>
    rcases hna : Paginator.next a with ⟨oa, ia⟩
    cases oa with
    | some x =>
      unfold Chain.next at h
      rw [hna] at h
      simp at h
    | none =>
      rcases hnb : Paginator.next b with ⟨ob, ib⟩
      cases ob with
      | some y =>
        unfold Chain.next at h
        rw [hna, hnb] at h
        simp at h
      | none =>
        unfold Chain.next at h
        rw [hna, hnb] at h
        obtain ⟨-, rfl⟩ := Prod.mk.injEq .. ▸ h
        unfold Chain.next
        simp [hb _ _ hnb]
  | Second =>
    rcases hnb : Paginator.next b with ⟨ob, ib⟩
    cases ob with
    | some y =>
      unfold Chain.next at h
      rw [hnb] at h
      simp at h
    | none =>
      unfold Chain.next at h
      rw [hnb] at h
      obtain ⟨-, rfl⟩ := Prod.mk.injEq .. ▸ h
      unfold Chain.next
      simp [hb _ _ hnb]

/-- `Chain::previous` is end-stable whenever A's `previous` is: after a
`Chain` backward end signal the discriminator is `First`, so further retreats
only re-invoke `A.previous()` on a cursor at its start. -/
theorem chain_previous_end_stable [Paginator σa α] [Paginator σb β] (conv : β → α)
    (ha : EndStable (@Paginator.previous σa α _)) :
    EndStable (@Chain.previous σa α σb β _ _ conv) := by
  intro s s₁ h
  obtain ⟨d, a, b⟩ := s
  cases d with
  | Second =>
    rcases hpb : Paginator.previous b with ⟨ob, ib⟩
    cases ob with
    | some y =>
      unfold Chain.previous at h
      rw [hpb] at h
      simp at h
    | none =>
      rcases hpa : Paginator.previous a with ⟨oa, ia⟩
      cases oa with
      | some x =>
        unfold Chain.previous at h
        rw [hpb, hpa] at h
        simp at h
      | none =>
        unfold Chain.previous at h
        rw [hpb, hpa] at h
        obtain ⟨-, rfl⟩ := Prod.mk.injEq .. ▸ h
        unfold Chain.previous
        simp [ha _ _ hpa]
  | First =>
    rcases hpa : Paginator.previous a with ⟨oa, ia⟩
    cases oa with
    | some x =>
      unfold Chain.previous at h
      rw [hpa] at h
      simp at h
    | none =>
      unfold Chain.previous at h
      rw [hpa] at h
      obtain ⟨-, rfl⟩ := Prod.mk.injEq .. ▸ h
      unfold Chain.previous
      simp [ha _ _ hpa]

/-- **C6.** Once a cursor of the provided suite has signaled "end" in a
direction, further calls in that direction keep signaling "end" and leave the
state exactly as it is (so nothing moves until a call in the other direction
succeeds): unconditionally for the single-element and both collection-backed
cursors, and for each adapter whenever the wrapped cursor(s) it re-invokes
after "end" have the same property — which the suite's source cursors do.
For the index-tagging adapter's retreat, the stable outcome is the end signal
(its panic case is a different, aborting outcome). -/
theorem c6_end_signal_stable {α β γ δ : Type} {σ σa σb : Type}
    [Paginator σ α] [Paginator σa γ] [Paginator σb δ] (conv : δ → γ) :
    EndStable (Once.next (α := α))
  ∧ EndStable (Once.previous (α := α))
  ∧ EndStable (VecPag.next (α := α))
  ∧ EndStable (VecPag.previous (α := α))
  ∧ EndStable (VecPagMut.next (α := α))
  ∧ EndStable (VecPagMut.previous (α := α))
  ∧ (EndStable (@Paginator.next σ α _) →
      EndStable (Map.next (σ := σ) (α := α) (β := β)))
  ∧ (EndStable (@Paginator.previous σ α _) →
      EndStable (Map.previous (σ := σ) (α := α) (β := β)))
  ∧ (EndStable (@Paginator.next σ α _) →
      EndStable (Enumerate.next (σ := σ)))
  ∧ (EndStable (@Paginator.previous σ α _) →
      ∀ s s₁ : Enumerate σ,
        Enumerate.previous s = some (none, s₁) →
        Enumerate.previous s₁ = some (none, s₁))
  ∧ (EndStable (@Paginator.next σb δ _) →
      EndStable (@Chain.next σa γ σb δ _ _ conv))
  ∧ (EndStable (@Paginator.previous σa γ _) →
      EndStable (@Chain.previous σa γ σb δ _ _ conv)) :=
  ⟨once_next_end_stable, once_previous_end_stable,
   vecPag_next_end_stable, vecPag_previous_end_stable,
   vecPagMut_next_end_stable, vecPagMut_previous_end_stable,
   map_next_end_stable, map_previous_end_stable,
   enumerate_next_end_stable, enumerate_previous_end_stable,
   chain_next_end_stable conv, chain_previous_end_stable conv⟩

/-- Witness for C6 at concrete states, one per conjunct: each cursor of the
suite, already at an end-signaling state, signals end again without moving,
with every adapter hypothesis discharged by the suite's collection cursor. -/
theorem c6_end_signal_stable_witness :
    Once.next (⟨1, 5⟩ : Once Nat) = (none, ⟨1, 5⟩)
  ∧ Once.previous (⟨0, 5⟩ : Once Nat) = (none, ⟨0, 5⟩)
  ∧ VecPag.next (⟨[7], 1⟩ : VecPag Nat) = (none, ⟨[7], 1⟩)
  ∧ VecPag.previous (⟨[7], 0⟩ : VecPag Nat) = (none, ⟨[7], 0⟩)
  ∧ VecPagMut.next (⟨[7], 1⟩ : VecPagMut Nat) = (none, ⟨[7], 1⟩)
  ∧ VecPagMut.previous (⟨[7], 0⟩ : VecPagMut Nat) = (none, ⟨[7], 0⟩)
  ∧ Map.next (⟨⟨[7], 1⟩, Nat.succ⟩ : Map (VecPag Nat) Nat Nat)
      = (none, ⟨⟨[7], 1⟩, Nat.succ⟩)
  ∧ Map.previous (⟨⟨[7], 0⟩, Nat.succ⟩ : Map (VecPag Nat) Nat Nat)
      = (none, ⟨⟨[7], 0⟩, Nat.succ⟩)
  ∧ Enumerate.next (⟨3, ⟨[7], 1⟩⟩ : Enumerate (VecPag Nat)) = (none, ⟨3, ⟨[7], 1⟩⟩)
  ∧ Enumerate.previous (⟨3, ⟨[7], 0⟩⟩ : Enumerate (VecPag Nat))
      = some (none, ⟨3, ⟨[7], 0⟩⟩)
  ∧ Chain.next (id : Nat → Nat)
      (⟨ChainState.Second, ⟨[1], 0⟩, ⟨[2], 1⟩⟩ : Chain (VecPag Nat) (VecPag Nat))
      = (none, ⟨ChainState.Second, ⟨[1], 0⟩, ⟨[2], 1⟩⟩)
  ∧ Chain.previous (id : Nat → Nat)
      (⟨ChainState.First, ⟨[1], 0⟩, ⟨[2], 0⟩⟩ : Chain (VecPag Nat) (VecPag Nat))
      = (none, ⟨ChainState.First, ⟨[1], 0⟩, ⟨[2], 0⟩⟩) := by
  have h := @c6_end_signal_stable Nat Nat Nat Nat
    (VecPag Nat) (VecPag Nat) (VecPag Nat) _ _ _ (id : Nat → Nat)
  refine ⟨h.1 ⟨1, 5⟩ ⟨1, 5⟩ (by decide),
    h.2.1 ⟨0, 5⟩ ⟨0, 5⟩ (by decide),
    h.2.2.1 ⟨[7], 1⟩ ⟨[7], 1⟩ (by decide),
    h.2.2.2.1 ⟨[7], 0⟩ ⟨[7], 0⟩ (by decide),
    h.2.2.2.2.1 ⟨[7], 1⟩ ⟨[7], 1⟩ (by decide),
    h.2.2.2.2.2.1 ⟨[7], 0⟩ ⟨[7], 0⟩ (by decide),
    h.2.2.2.2.2.2.1 h.2.2.1 ⟨⟨[7], 1⟩, Nat.succ⟩ ⟨⟨[7], 1⟩, Nat.succ⟩ rfl,
    h.2.2.2.2.2.2.2.1 h.2.2.2.1 ⟨⟨[7], 0⟩, Nat.succ⟩ ⟨⟨[7], 0⟩, Nat.succ⟩ rfl,
    h.2.2.2.2.2.2.2.2.1 h.2.2.1 ⟨3, ⟨[7], 1⟩⟩ ⟨3, ⟨[7], 1⟩⟩ (by decide),
    h.2.2.2.2.2.2.2.2.2.1 h.2.2.2.1 ⟨3, ⟨[7], 0⟩⟩ ⟨3, ⟨[7], 0⟩⟩ (by decide),
    h.2.2.2.2.2.2.2.2.2.2.1 h.2.2.1
      ⟨ChainState.Second, ⟨[1], 0⟩, ⟨[2], 1⟩⟩
      ⟨ChainState.Second, ⟨[1], 0⟩, ⟨[2], 1⟩⟩ (by decide),
    h.2.2.2.2.2.2.2.2.2.2.2 h.2.2.2.1
      ⟨ChainState.First, ⟨[1], 0⟩, ⟨[2], 0⟩⟩
      ⟨ChainState.First, ⟨[1], 0⟩, ⟨[2], 0⟩⟩ (by decide)⟩

/-- **C9.** The single-element cursor is observationally equivalent to a read
collection cursor over the one-element list: from their freshly constructed
states, every finite sequence of advance/retreat calls returns the same
sequence of results. -/
theorem c9_once_equiv_singleton (α : Type) (e : α) (ops : List Op) :
    outputs ops (once e) = outputs ops (paginate [e]) :=
  once_vecPag_outputs_aux e ops 0

/-- **C10.** `VecPag`'s fields are public, so a collection cursor may start at
a nonzero index; tagging it with `enumerate()` puts the counter at 0.  From
`VecPag { items: [5], index: 1 }`, the inner retreat alone succeeds and yields
element 5, but the enumerated retreat performs the unguarded `usize`
subtraction `0 - 1`, which aborts (the outer `none`) instead of returning a
tagged element. -/
theorem c10_enumerate_retreat_counter_underflow :
    VecPag.previous (⟨[5], 1⟩ : VecPag Nat) = (some 5, ⟨[5], 0⟩)
  ∧ Enumerate.previous (Paginator.enumerate (⟨[5], 1⟩ : VecPag Nat)) = none := by
  refine ⟨rfl, rfl⟩

end Pagination
